import Mathlib

/-!
Verification development for the beamium metrics relay.

The definitions below are shallow embeddings of the corresponding Rust
functions, translated line by line from the sources named in each doc
comment.  Strings are modelled as `List Char`; the spool content handled by
the program is ASCII, for which `List Char` and Rust's byte strings agree
(lengths are counted in characters, which equals bytes for ASCII).
-/

namespace Beamium

/-- ASCII whitespace test, modelling Rust's `char::is_whitespace` on the
ASCII range used by canonical lines. -/
def isWsChar (c : Char) : Bool :=
  c = ' ' ∨ c = '\t' ∨ c = '\n' ∨ c = '\r'

/-- Rust `str::splitn(2, c)`: the part before the first occurrence of `c`
and, when `c` occurs, the remainder after it. -/
def splitn2 (c : Char) : List Char → List Char × Option (List Char)
  | [] => ([], none)
  | x :: xs =>
    if x = c then ([], some xs)
    else
      let r := splitn2 c xs
      (x :: r.1, r.2)

/-- Rust `str::splitn(2, "\x7d ")` (closing brace followed by a space):
the part before the first occurrence of the two-character pattern and,
when it occurs, the remainder after it. -/
def splitBraceSpace : List Char → List Char × Option (List Char)
  | [] => ([], none)
  | x :: xs =>
    if x = '\x7d' then
      match xs with
      | [] => ([x], none)
      | y :: ys =>
        if y = ' ' then ([], some ys)
        else
          let r := splitBraceSpace xs
          (x :: r.1, r.2)
    else
      let r := splitBraceSpace xs
      (x :: r.1, r.2)

/-- Rust `str::split(c)`: every part, empty parts included. -/
def splitAll (c : Char) : List Char → List (List Char)
  | [] => [[]]
  | x :: xs =>
    if x = c then [] :: splitAll c xs
    else
      match splitAll c xs with
      | [] => [[x]]
      | p :: ps => (x :: p) :: ps

/-- Drop trailing whitespace (the right half of Rust `str::trim`). -/
def trimRight : List Char → List Char
  | [] => []
  | x :: xs =>
    match trimRight xs with
    | [] => if isWsChar x then [] else [x]
    | r => x :: r

/-- Rust `str::trim` on the ASCII range. -/
def trim (l : List Char) : List Char :=
  trimRight (l.dropWhile isWsChar)

/-- Parse failures of the label editor (src/lib/mod.rs): `no_labels` when
the line has no opening brace, `no_value` when the labels block is not
terminated by a closing brace followed by a space. -/
inductive LabelError
  | noLabels
  | noValue
deriving DecidableEq

instance {ε α : Type} [DecidableEq ε] [DecidableEq α] : DecidableEq (Except ε α) :=
  fun x y =>
    match x, y with
    | .ok a, .ok b =>
      if h : a = b then .isTrue (h ▸ rfl) else .isFalse (fun he => h (Except.ok.inj he))
    | .error a, .error b =>
      if h : a = b then .isTrue (h ▸ rfl) else .isFalse (fun he => h (Except.error.inj he))
    | .ok _, .error _ => .isFalse (fun he => Except.noConfusion he)
    | .error _, .ok _ => .isFalse (fun he => Except.noConfusion he)

/-- `add_labels` from src/lib/mod.rs lines 26-52.  Splits the line on the
first opening brace and splices the preformatted `labels` string right
after it; the separating comma is omitted when the remainder, trimmed,
starts with a closing brace. -/
def add_labels (line labels : List Char) : Except LabelError (List Char) :=
  if labels.isEmpty then .ok line
  else
    let s := splitn2 '\x7b' line
    match s.2 with
    | none => .error .noLabels
    | some plabels =>
      let sep : List Char := if (trim plabels).head? = some '\x7d' then [] else [',']
      .ok (s.1 ++ '\x7b' :: (labels ++ sep ++ plabels))

/-- One label of the labels chunk, split by Rust
`l.split('=')` followed by two `pop()` calls: the value is the part after
the last equals sign, the key the part just before it; a chunk with fewer
than two parts yields `none` and is silently dropped by `filterMap`
(src/lib/mod.rs lines 90-95). -/
def parseLabel (l : List Char) : Option (List Char × List Char) :=
  match (splitAll '=' l).reverse with
  | v :: k :: _ => some (k, v)
  | _ => none

/-- `labels.join(",")` of src/lib/mod.rs line 100. -/
def joinComma : List (List Char) → List Char
  | [] => []
  | [x] => x
  | x :: y :: ys => x ++ ',' :: joinComma (y :: ys)

/-- `remove_labels` from src/lib/mod.rs lines 55-101. -/
def remove_labels (line : List Char) (labels_to_drop : List (List Char)) :
    Except LabelError (List Char) :=
  if labels_to_drop.isEmpty then .ok line
  else
    let s := splitn2 '\x7b' line
    match s.2 with
    | none => .error .noLabels
    | some rest =>
      let e := splitBraceSpace rest
      match e.2 with
      | none => .error .noValue
      | some value =>
        let kept := ((splitAll ',' e.1).filterMap parseLabel).filter
          (fun kv => ¬ labels_to_drop.contains kv.1)
        let rendered := kept.map (fun kv => kv.1 ++ '=' :: kv.2)
        .ok (s.1 ++ '\x7b' :: (joinComma rendered ++ '\x7d' :: ' ' :: value))

/-! ### Transcompiler (src/lib/transcompiler.rs) -/

/-- Errors of `format_prometheus`: `bad class` when neither a closing brace
nor a space locates the class/value split, `no value` when the value token
is missing. -/
inductive TcError
  | badClass
  | noValue
deriving DecidableEq

/-- Index of the last occurrence of `c` (Rust `str::rfind(c)`). -/
def rfindIdx (c : Char) (l : List Char) : Option Nat :=
  match l with
  | [] => none
  | x :: xs =>
    match rfindIdx c xs with
    | some i => some (i + 1)
    | none => if x = c then some 0 else none

/-- Index of the first occurrence of `c` (Rust `str::find(c)`). -/
def findIdx (c : Char) (l : List Char) : Option Nat :=
  match l with
  | [] => none
  | x :: xs =>
    if x = c then some 0
    else
      match findIdx c xs with
      | some i => some (i + 1)
      | none => none

/-- Rust `str::split_whitespace`: maximal non-whitespace tokens. -/
def splitWsAux : List Char → List Char → List (List Char)
  | [], cur => if cur.isEmpty then [] else [cur.reverse]
  | x :: xs, cur =>
    if isWsChar x then
      if cur.isEmpty then splitWsAux xs []
      else cur.reverse :: splitWsAux xs []
    else splitWsAux xs (x :: cur)

/-- Rust `str::split_whitespace` entry point. -/
def splitWs (l : List Char) : List (List Char) :=
  splitWsAux l []

/-- Upper-case hexadecimal digit. -/
def hexDigit (n : Nat) : Char :=
  if n < 10 then Char.ofNat (48 + n) else Char.ofNat (55 + n)

/-- `urlencoding::encode` (crate v1): bytes outside
`A-Z a-z 0-9 - _ . ~` become a percent escape with two upper-case hex
digits.  The inputs the program encodes are ASCII, where byte and
character coincide. -/
def encode (l : List Char) : List Char :=
  match l with
  | [] => []
  | c :: cs =>
    if c.isAlpha ∨ c.isDigit ∨ c = '-' ∨ c = '_' ∨ c = '.' ∨ c = '~' then
      c :: encode cs
    else
      '%' :: hexDigit (c.toNat / 16) :: hexDigit (c.toNat % 16) :: encode cs

/-- Largest `i64` value. -/
def i64Max : Int := 2 ^ 63 - 1

/-- Decimal digits accumulated into a natural number; `none` on any
non-digit character. -/
def digitsToNat (acc : Nat) : List Char → Option Nat
  | [] => some acc
  | c :: cs =>
    if c.isDigit then digitsToNat (acc * 10 + (c.toNat - 48)) cs else none

/-- Rust `i64::from_str_radix(s, 10)`: optional sign, at least one digit,
result within the `i64` range. -/
def parseI64 (l : List Char) : Option Int :=
  match l with
  | [] => none
  | '+' :: rest =>
    match rest with
    | [] => none
    | _ =>
      match digitsToNat 0 rest with
      | none => none
      | some n => if (n : Int) ≤ i64Max then some (n : Int) else none
  | '-' :: rest =>
    match rest with
    | [] => none
    | _ =>
      match digitsToNat 0 rest with
      | none => none
      | some n => if (n : Int) ≤ 2 ^ 63 then some (-(n : Int)) else none
  | _ =>
    match digitsToNat 0 l with
    | none => none
    | some n => if (n : Int) ≤ i64Max then some (n : Int) else none

/-- Two's-complement wrap of an integer into the `i64` range, the release
mode behaviour of the `v * 1000` multiplication. -/
def wrapI64 (z : Int) : Int :=
  (z + 2 ^ 63) % 2 ^ 64 - 2 ^ 63

/-- Decimal rendering of a natural number, digits accumulated from the
low end; the fuel argument only bounds the digit count. -/
def natToCharsAux : Nat → Nat → List Char → List Char
  | 0, _, acc => acc
  | fuel + 1, n, acc =>
    if n = 0 then acc
    else natToCharsAux fuel (n / 10) (Char.ofNat (48 + n % 10) :: acc)

/-- Decimal rendering of a natural number. -/
def natToChars (n : Nat) : List Char :=
  if n = 0 then ['0'] else natToCharsAux (n + 1) n []

/-- Decimal rendering of an integer (Rust `format!` of an `i64`). -/
def intToChars (z : Int) : List Char :=
  if z < 0 then '-' :: natToChars (-z).toNat else natToChars z.toNat

/-- The label walk of `format_prometheus` (src/lib/transcompiler.rs lines
76-102): a double quote toggles the in-label mode; outside quotes an
equals sign, a comma or a closing brace flushes the percent-encoded
buffer, with equals signs and commas copied verbatim. -/
def promLabels : List Char → Bool → List Char → List Char → List Char
  | [], _, _, labels => labels
  | c :: cs, inLabel, buffer, labels =>
    if c = '"' then promLabels cs (!inLabel) buffer labels
    else if ¬ inLabel ∧ (c = '=' ∨ c = ',' ∨ c = '\x7d') then
      let labels := labels ++ encode buffer
      let labels :=
        if c = ',' then labels ++ [',']
        else if c = '=' then labels ++ ['=']
        else labels
      promLabels cs inLabel [] labels
    else promLabels cs inLabel (buffer ++ [c]) labels

/-- `format_prometheus` from src/lib/transcompiler.rs lines 38-109. -/
def format_prometheus (line : List Char) (now : Int) : Except TcError (List Char) :=
  let line := trim line
  if line.head? = some '#' ∨ line.isEmpty then .ok []
  else
    let idx := if line.contains '\x7b' then rfindIdx '\x7d' line else findIdx ' ' line
    match idx with
    | none => .error .badClass
    | some index =>
      let cls := line.take (index + 1)
      let v := line.drop (index + 1)
      match (splitWs v).head? with
      | none => .error .noValue
      | some value =>
        if value = "+Inf".toList ∨ value = "-Inf".toList ∨
            value = "nan".toList ∨ value = "NaN".toList then .ok []
        else
          let timestamp :=
            match (splitWs v).get? 1 with
            | none => now
            | some t =>
              match parseI64 t with
              | some n => wrapI64 (n * 1000)
              | none => now
          let s := splitn2 '\x7b' cls
          let cls2 := encode (trim s.1)
          let slabels :=
            match s.2 with
            | none => []
            | some pl => promLabels pl false [] []
          .ok (intToChars timestamp ++ '/' :: '/' :: ' ' ::
            (cls2 ++ '\x7b' :: slabels ++ '\x7d' :: ' ' :: value))

/-- The scraper's per-line pipeline restricted to what claim C6 exercises
(src/scraper.rs lines 183-200): transcompile, skip empty output, then
`add_labels` with the scraper's preformatted extra labels. -/
def scraperLine (line : List Char) (now : Int) (labels : List Char) :
    Option (List Char) :=
  match format_prometheus line now with
  | .error _ => none
  | .ok l =>
    if l.isEmpty then none
    else
      match add_labels l labels with
      | .error _ => none
      | .ok r => some r

/-! ### Sink scanner tick (src/sink.rs, the fold body of `Sink::start`) -/

/-- A directory entry as the scanner delivers it: file name, age of the
mtime in seconds (`modified.elapsed()`), and size in bytes
(`meta.len()`). -/
structure FileMeta where
  path : String
  age : Nat
  size : Nat
deriving DecidableEq

/-- Sink configuration fields the scanner fold reads: the name prefix, the
`ttl` in seconds and the byte cap `size` (called `max_size` in the raw
configuration). -/
structure SinkConf where
  name : String
  ttl : Nat
  size : Nat

/-- Whether the character list `pre` opens the character list `s`. -/
def listStarts : List Char → List Char → Bool
  | [], _ => true
  | _ :: _, [] => false
  | p :: ps, c :: cs => p == c && listStarts ps cs

/-- Rust `str::starts_with(pre)` on `s`. -/
def strStarts (s pre : String) : Bool :=
  listStarts pre.data s.data

/-- Entries whose name carries the sink prefix and whose age exceeds the
ttl (src/sink.rs lines 103-119): each is unlinked and counted. -/
def expiredOf (conf : SinkConf) (entries : List FileMeta) : List FileMeta :=
  entries.filter (fun e => strStarts e.path conf.name ∧ conf.ttl < e.age)

/-- Entries whose name carries the sink prefix and whose age is strictly
below the ttl (src/sink.rs lines 138-154). -/
def freshOf (conf : SinkConf) (entries : List FileMeta) : List FileMeta :=
  entries.filter (fun e => strStarts e.path conf.name ∧ e.age < conf.ttl)

/-- First entry with the given path (`entries.get(&path)` on the fresh
map). -/
def lookupMeta (entries : List FileMeta) (p : String) : Option FileMeta :=
  entries.find? (fun e => e.path = p)

/-- `queue.push_front(path)` for each new path in turn (src/sink.rs lines
170-172).  The queue is front-first: the head is what a sender pops. -/
def enqueueNew (new : List String) (queue : List String) : List String :=
  new.foldl (fun q p => p :: q) queue

/-- The size-cap loop of src/sink.rs lines 174-199, expressed on the
reversed queue so that the head is the back (`pop_back`).  While the
running size exceeds the cap and the queue is non-empty the back is
popped; a popped path present in the fresh map is unlinked, counted and
its size subtracted, a popped path absent from it is discarded with no
further action.  Returns the surviving reversed queue, the unlinked
paths in pop order, the counter increments and the final running size. -/
def evictRev (maxSize : Nat) (fresh : List FileMeta) :
    List String → Nat → List String × List String × Nat × Nat
  | qrev, sz =>
    if maxSize < sz then
      match qrev with
      | [] => ([], [], 0, sz)
      | p :: rest =>
        match lookupMeta fresh p with
        | none => evictRev maxSize fresh rest sz
        | some m =>
          let r := evictRev maxSize fresh rest (sz - m.size)
          (r.1, p :: r.2.1, r.2.2.1 + 1, r.2.2.2)
    else (qrev, [], 0, sz)

/-- Result of one scanner tick of a sink: the new seen set (the fold
accumulator), the queue after admission and eviction, the queue right
after admission, the unlinked expired paths with the ttl-skip increment,
and the paths unlinked by the size cap with the size-skip increment. -/
structure TickResult where
  seen : List String
  queue : List String
  enqueued : List String
  unlinkedTtl : List String
  ttlSkips : Nat
  unlinkedSize : List String
  sizeSkips : Nat

/-- One tick of the sink scanner fold (src/sink.rs lines 96-203).
`acc` is the seen set carried by the fold, `queue` the shared sender
queue, `entries` the scanner output.  The expired entries are unlinked
and counted; the fresh entries form the new seen set and their summed
size seeds the cap loop; fresh paths not yet seen are pushed one by one
onto the front of the queue; finally the cap loop evicts from the back. -/
def sinkTick (conf : SinkConf) (acc : List String) (queue : List String)
    (entries : List FileMeta) : TickResult :=
  let expired := expiredOf conf entries
  let fresh := freshOf conf entries
  let paths := fresh.map (·.path)
  let currentSize := fresh.foldl (fun a e => a + e.size) 0
  let new := paths.filter (fun p => decide (p ∉ acc))
  let afterPush := enqueueNew new queue
  let ev := evictRev conf.size fresh afterPush.reverse currentSize
  { seen := paths
    queue := ev.1.reverse
    enqueued := afterPush
    unlinkedTtl := expired.map (·.path)
    ttlSkips := expired.length
    unlinkedSize := ev.2.1
    sizeSkips := ev.2.2.1 }

/-! ### HTTP sender and streaming body (src/lib/asynch/http.rs) -/

/-- A spool file as the body streamer sees it: its path and its lines
(newline separators implicit; a blank line stands for a lone "\n"). -/
structure SpoolFile where
  name : String
  lines : List String
deriving DecidableEq

/-- The limits the body streamer reads from the parameters. -/
structure BatchParams where
  batch_count : Nat
  batch_size : Nat

/-- `CHUNK_SIZE` from src/constants.rs. -/
def CHUNK_SIZE : Nat := 1024 * 1024

/-- The mutable state of `Body` (src/lib/asynch/http.rs lines 245-253):
the shared queue (front-first), the `SegQueue` of consumed paths in
consumption order, the running byte and file counts, and the open reader
modelled as the remaining lines of the current file. -/
structure BodyS where
  queue : List SpoolFile
  files : List SpoolFile
  current_batch_size : Nat
  current_batch_count : Nat
  reader : Option (List String)
deriving DecidableEq

/-- What one `poll_data` call yields. -/
inductive PollResult
  | chunk (data : List String)
  | eof
  | notReady
deriving DecidableEq

/-- The read loop of `poll_data` (src/lib/asynch/http.rs lines 324-355):
lines are pulled from the reader while the chunk is below `CHUNK_SIZE`;
an exhausted file closes the reader; a blank line is skipped; a missing
trailing newline is appended, so each line contributes its length plus
one.  Returns the emitted lines, the remaining reader and the bytes
accounted to the batch. -/
def readChunk (sz : Nat) : List String → Nat → List String × Option (List String) × Nat
  | lines, len =>
    if len < sz then
      match lines with
      | [] => ([], none, 0)
      | line :: rest =>
        if line = "" then readChunk sz rest len
        else
          let ll := line.length + 1
          let r := readChunk sz rest (len + ll)
          (line :: r.1, r.2.1, ll + r.2.2)
    else ([], some lines, 0)

/-- `Body::poll_data` (src/lib/asynch/http.rs lines 287-360).  With no
open reader the batch limits are checked first and then a file is popped
from the queue front; reaching a limit or an empty queue ends the body.
With an open reader a chunk is read; limits are not consulted. -/
def poll_data (p : BatchParams) (b : BodyS) : PollResult × BodyS :=
  match b.reader with
  | none =>
    if p.batch_count ≤ b.current_batch_count ∨ p.batch_size ≤ b.current_batch_size then
      (.eof, b)
    else
      match b.queue with
      | [] => (.eof, b)
      | f :: rest =>
        (.notReady,
         { b with
            queue := rest
            reader := some f.lines
            files := b.files ++ [f]
            current_batch_count := b.current_batch_count + 1 })
  | some lines =>
    let r := readChunk CHUNK_SIZE lines 0
    (.chunk r.1,
     { b with reader := r.2.1, current_batch_size := b.current_batch_size + r.2.2 })

/-- The sender states of src/lib/asynch/http.rs lines 49-54. -/
inductive SenderSt
  | idle
  | sending
  | waiting
  | backoff
deriving DecidableEq

/-- The sender state the `Sending` branches touch: the shared queue, the
consumed-file `SegQueue`, the push-error counter and the backoff state
modelled as the number of consecutive failed attempts (zero after
`reset`). -/
structure SenderS where
  queue : List SpoolFile
  files : List SpoolFile
  pushErrors : Nat
  backoffAttempts : Nat
  state : SenderSt
deriving DecidableEq

/-- The error pushback loop of src/lib/asynch/http.rs lines 184-190: the
consumed files are popped from the `SegQueue` in consumption order
(it is FIFO) and each is pushed onto the front of the queue. -/
def pushBackAll : List SpoolFile → List SpoolFile → List SpoolFile
  | [], q => q
  | f :: fs, q => pushBackAll fs (f :: q)

/-- The `State::Sending` error branch (src/lib/asynch/http.rs lines
181-208): push every consumed file back onto the queue front, increment
the push-error counter, advance the backoff and move to `Backoff`. -/
def sendError (s : SenderS) : SenderS :=
  { queue := pushBackAll s.files s.queue
    files := []
    pushErrors := s.pushErrors + 1
    backoffAttempts := s.backoffAttempts + 1
    state := .backoff }

/-- The success path (src/lib/asynch/http.rs lines 168-176 and 210-215):
every consumed file is removed from disk, then the backoff is reset and
the sender returns to `Idle`.  The disk is the list of files still
present. -/
def sendSuccess (s : SenderS) (disk : List SpoolFile) : SenderS × List SpoolFile :=
  ({ queue := s.queue
     files := []
     pushErrors := s.pushErrors
     backoffAttempts := 0
     state := .idle },
   disk.filter (fun f => decide (f ∉ s.files)))

/-! ### Scraper spool writing (src/scraper.rs, `Scraper::write`) -/

/-- The chunking loop of `Scraper::write` (src/scraper.rs lines 218-259):
the running byte count grows by each line's length; when it exceeds
`batch_size` and the line does not start with an equals sign, the
accumulated chunk is flushed and the count restarts at zero with the
current line opening the next chunk.  Returns the flushed chunks and the
remainder chunk. -/
def writeLoop (batchSize : Nat) : Nat → List String → List String →
    List (List String) × List String
  | _, chunk, [] => ([], chunk)
  | bs, chunk, line :: rest =>
    let bs' := bs + line.length
    if batchSize < bs' ∧ ¬ line.startsWith "=" then
      let r := writeLoop batchSize 0 [line] rest
      (chunk :: r.1, r.2)
    else writeLoop batchSize bs' (chunk ++ [line]) rest

/-- File content written for one chunk: `chunk.join("\n") + "\n"`
(src/scraper.rs lines 241 and 274). -/
def chunkContent (chunk : List String) : String :=
  String.intercalate "\n" chunk ++ "\n"

/-- `Scraper::write` as the list of file contents it produces, in
creation order; the remainder file is created unconditionally after the
loop (src/scraper.rs lines 263-287), so it is always the last element. -/
def scraperWrite (batchSize : Nat) (lines : List String) : List String :=
  let r := writeLoop batchSize 0 [] lines
  r.1.map chunkContent ++ [chunkContent r.2]

/-- The empty-file sweep test of the directory scanner
(src/lib/asynch/fs.rs line 120): a file survives iff its length is
positive. -/
def scannerKeeps (len : Nat) : Bool :=
  0 < len

/-! ### Helper lemmas -/

theorem pushBackAll_eq (fs q : List SpoolFile) :
    pushBackAll fs q = fs.reverse ++ q := by
  induction fs generalizing q with
  | nil => simp [pushBackAll]
  | cons f fs ih => simp [pushBackAll, ih]

theorem enqueueNew_eq (new q : List String) :
    enqueueNew new q = new.reverse ++ q := by
  induction new generalizing q with
  | nil => simp [enqueueNew]
  | cons p ps ih =>
    show enqueueNew ps (p :: q) = (p :: ps).reverse ++ q
    simp [ih ]

/-! ### Claim C1 -/

/-- C1 (counterexample): after a failed POST whose body consumed the
files `a` then `b` from a queue whose tail was `c`, the claim requires
the queue to become `a, b, c` (original order restored at the front);
the error branch instead produces `b, a, c` — the consumed files come
back reversed, because the FIFO `SegQueue` is drained front-first and
each element is pushed onto the front of the deque. -/
theorem sender_pushback_reorders :
    (sendError ⟨ [⟨ "c", []⟩], [⟨ "a", []⟩, ⟨ "b", []⟩], 0, 0, .sending⟩).queue ≠
      [⟨ "a", []⟩, ⟨ "b", []⟩, ⟨ "c", []⟩] ∧
    (sendError ⟨ [⟨ "c", []⟩], [⟨ "a", []⟩, ⟨ "b", []⟩], 0, 0, .sending⟩).queue =
      [⟨ "b", []⟩, ⟨ "a", []⟩, ⟨ "c", []⟩] := by
  exact ⟨ by decide, by decide⟩

/-- C1 (amended): on a failed POST the sender pushes every file the body
consumed back onto the front of the queue in reverse consumption order —
so the consumed block sits at the front but internally reversed — and
increments the push-error counter, moving to the `Backoff` state. -/
theorem sender_error_pushback (s : SenderS) :
    (sendError s).queue = s.files.reverse ++ s.queue ∧
    (sendError s).pushErrors = s.pushErrors + 1 ∧
    (sendError s).state = .backoff := by
  refine ⟨ ?_, rfl, rfl⟩
  simp [sendError, pushBackAll_eq]

/-! ### Claim C2 -/

/-- C2: after a 2xx response every file the body consumed is unlinked
from disk, and the sender resets its backoff state and returns to
`Idle`. -/
theorem sender_success_unlinks (s : SenderS) (disk : List SpoolFile) :
    (∀ f ∈ s.files, f ∉ (sendSuccess s disk).2) ∧
    (sendSuccess s disk).1.backoffAttempts = 0 ∧
    (sendSuccess s disk).1.state = .idle := by
  refine ⟨ ?_, rfl, rfl⟩
  intro f hf hmem
  simp only [sendSuccess, List.mem_filter, decide_eq_true_eq] at hmem
  exact hmem.2 hf

/-- C2 (witness): a consumed file is gone from a disk that held it, at a
concrete sender state. -/
theorem sender_success_unlinks_witness :
    (⟨ "a", []⟩ : SpoolFile) ∉
      (sendSuccess ⟨ [], [⟨ "a", []⟩], 0, 3, .sending⟩ [⟨ "a", []⟩]).2 :=
  (sender_success_unlinks _ _).1 _ (by decide)

/-! ### Claim C5 -/

/-- C5 (counterexample): one tick discovering the two fresh files
`sink-a` (age 2, the older) and `sink-b` (age 1, the newer) with an
empty seen set and queue.  The claim requires the queue to read
`sink-a, sink-b` front-first so that senders pop oldest-first; the tick
instead leaves `sink-b` at the front, so the sender pops the newest
file next. -/
theorem sink_enqueue_not_fifo :
    (sinkTick ⟨ "sink", 10, 10000⟩ [] []
        [⟨ "sink-a", 2, 10⟩, ⟨ "sink-b", 1, 10⟩]).queue ≠
      [ "sink-a", "sink-b"] ∧
    (sinkTick ⟨ "sink", 10, 10000⟩ [] []
        [⟨ "sink-a", 2, 10⟩, ⟨ "sink-b", 1, 10⟩]).queue =
      [ "sink-b", "sink-a"] ∧
    (sinkTick ⟨ "sink", 10, 10000⟩ [] []
        [⟨ "sink-a", 2, 10⟩, ⟨ "sink-b", 1, 10⟩]).queue.head? =
      some "sink-b" := by
  exact ⟨ by decide, by decide, by decide⟩

/-- C5 (amended): newly discovered files are pushed one by one onto the
front of the queue, so they end up in front of everything already queued
in reverse insertion order; the next file a sender pops is the last
element of the new batch, making cross-tick consumption newest-first
(LIFO), not oldest-first. -/
theorem sink_enqueue_reverses :
    (∀ (new q : List String), enqueueNew new q = new.reverse ++ q) ∧
    (∀ (new q : List String), new ≠ [] →
      (enqueueNew new q).head? = new.getLast?) := by
  refine ⟨ enqueueNew_eq, ?_⟩
  intro new q hne
  rw [enqueueNew_eq]
  rw [← List.head?_reverse]
  cases h : new.reverse with
  | nil => exact absurd (by simpa using h) hne
  | cons a t => simp [h ]

/-- C5 (witness): at a concrete two-element batch the next pop is the
last inserted element. -/
theorem sink_enqueue_reverses_witness :
    (enqueueNew [ "sink-a", "sink-b"] ([] : List String)).head? =
      ([ "sink-a", "sink-b"] : List String).getLast? :=
  sink_enqueue_reverses.2 _ _ (by decide)

/-! ### Claim C6 -/

/-- C6 (counterexample): on the Prometheus line
`foo(a="1") 42 1700000000` (with braces around the label) and extra
labels `host=h1`, the pipeline does not produce the canonical line the
claim expects, whose timestamp reads `1700000000000000`: the code
multiplies the millisecond timestamp by one thousand, which yields
`1700000000000`. -/
theorem scraper_line_c6_expected_wrong :
    scraperLine "foo\x7ba=\"1\"\x7d 42 1700000000".toList 0 "host=h1".toList ≠
      some "1700000000000000// foo\x7bhost=h1,a=1\x7d 42".toList := by
  decide

/-- C6 (amended): the transcompile-then-add-labels pipeline on that line
produces the canonical line with timestamp `timestamp_ms * 1000`, that
is `1700000000000// foo(host=h1,a=1) 42` with braces around the label
list. -/
theorem scraper_line_c6_output :
    scraperLine "foo\x7ba=\"1\"\x7d 42 1700000000".toList 0 "host=h1".toList =
      some "1700000000000// foo\x7bhost=h1,a=1\x7d 42".toList := by
  decide

/-! ### Claim C10 -/

/-- C10: `Scraper::write` creates the remainder file unconditionally —
the output list always ends with the remainder chunk's content — and on
a tick with zero lines the single finalized file holds exactly one
newline, whose length 1 the scanner's empty-file sweep keeps. -/
theorem scraper_write_remainder (batchSize : Nat) (lines : List String) :
    scraperWrite batchSize lines ≠ [] ∧
    (scraperWrite batchSize lines).getLast? =
      some (chunkContent (writeLoop batchSize 0 [] lines).2) ∧
    scraperWrite batchSize [] = [ "\n"] ∧
    String.length "\n" = 1 ∧
    scannerKeeps (String.length "\n") = true := by
  have hc : chunkContent [] = "\n" := by decide
  refine ⟨ ?_, ?_, ?_, by decide, by decide⟩
  · simp [scraperWrite]
  · simp [scraperWrite]
  · simp [scraperWrite, writeLoop, hc]

theorem evictRev_drop (ms : Nat) (fr : List FileMeta) :
    ∀ (q : List String) (sz : Nat), ∃ n, (evictRev ms fr q sz).1 = q.drop n := by
  intro q
  induction q with
  | nil =>
    intro sz
    refine ⟨ 0, ?_⟩
    simp only [evictRev]
    split <;> rfl
  | cons p rest ih =>
    intro sz
    by_cases h : ms < sz
    · simp only [evictRev, if_pos h]
      cases hm : lookupMeta fr p with
      | none =>
        obtain ⟨ n, hn⟩ := ih sz
        exact ⟨ n + 1, hn⟩
      | some m =>
        obtain ⟨ n, hn⟩ := ih (sz - m.size)
        exact ⟨ n + 1, hn⟩
    · refine ⟨ 0, ?_⟩
      simp only [evictRev, if_neg h]
      rfl

theorem evictRev_stop (ms : Nat) (fr : List FileMeta) :
    ∀ (q : List String) (sz : Nat),
      (evictRev ms fr q sz).2.2.2 ≤ ms ∨ (evictRev ms fr q sz).1 = [] := by
  intro q
  induction q with
  | nil =>
    intro sz
    by_cases h : ms < sz
    · right; simp only [evictRev, if_pos h]
    · left; simp only [evictRev, if_neg h]; omega
  | cons p rest ih =>
    intro sz
    by_cases h : ms < sz
    · simp only [evictRev, if_pos h]
      cases hm : lookupMeta fr p with
      | none => exact ih sz
      | some m => exact ih (sz - m.size)
    · left; simp only [evictRev, if_neg h]; omega

/-! ### Claim C3 -/

/-- C3 (counterexample): a sink with `ttl = 5` scanning a matching file
of age exactly 5.  The claim's partition — expired = age strictly over
the ttl, fresh = everything else — requires this file to be inserted
into the seen set and the queue; the code instead admits only ages
strictly below the ttl, so the file is neither unlinked and counted nor
enqueued nor remembered: it is silently dropped for this tick. -/
theorem sink_ttl_boundary_dropped :
    ( "sink-a" ∉ (sinkTick ⟨ "sink", 5, 1000⟩ [] [] [⟨ "sink-a", 5, 10⟩]).seen) ∧
    ( "sink-a" ∉ (sinkTick ⟨ "sink", 5, 1000⟩ [] [] [⟨ "sink-a", 5, 10⟩]).enqueued) ∧
    (sinkTick ⟨ "sink", 5, 1000⟩ [] [] [⟨ "sink-a", 5, 10⟩]).unlinkedTtl = [] ∧
    (sinkTick ⟨ "sink", 5, 1000⟩ [] [] [⟨ "sink-a", 5, 10⟩]).ttlSkips = 0 := by
  exact ⟨ by decide, by decide, by decide, by decide⟩

/-- C3 (amended): on a scanner tick, every matching entry with age
strictly over the ttl is unlinked, counted by the ttl-skip counter and
neither remembered nor newly enqueued; every matching entry with age
strictly below the ttl enters the seen set and, if not seen before, the
queue; a file whose age equals the ttl exactly falls in neither class;
and the post-eviction queue only holds paths present right after
admission. -/
theorem sink_ttl_tick (conf : SinkConf) (acc queue : List String)
    (entries : List FileMeta) (hnd : (entries.map (·.path)).Nodup) :
    (∀ e ∈ entries, strStarts e.path conf.name = true → conf.ttl < e.age →
      e.path ∈ (sinkTick conf acc queue entries).unlinkedTtl ∧
      e.path ∉ (sinkTick conf acc queue entries).seen ∧
      (e.path ∉ queue → e.path ∉ (sinkTick conf acc queue entries).enqueued)) ∧
    (∀ e ∈ entries, strStarts e.path conf.name = true → e.age < conf.ttl →
      e.path ∈ (sinkTick conf acc queue entries).seen ∧
      (e.path ∉ acc → e.path ∈ (sinkTick conf acc queue entries).enqueued)) ∧
    (sinkTick conf acc queue entries).ttlSkips =
      (sinkTick conf acc queue entries).unlinkedTtl.length ∧
    (∀ p, p ∈ (sinkTick conf acc queue entries).queue →
      p ∈ (sinkTick conf acc queue entries).enqueued) := by
  have hfreshpath : ∀ e ∈ entries, conf.ttl < e.age →
      e.path ∉ (freshOf conf entries).map (·.path) := by
    intro e he hage hmem
    simp only [List.mem_map, freshOf, List.mem_filter, decide_eq_true_eq] at hmem
    obtain ⟨ e', ⟨ he', _, hlt⟩, hpath⟩ := hmem
    have heq : e' = e := List.inj_on_of_nodup_map hnd he' he hpath
    rw [heq] at hlt
    omega
  refine ⟨ ?_, ?_, ?_, ?_⟩
  · intro e he hpre hage
    refine ⟨ ?_, ?_, ?_⟩
    · simp only [sinkTick, List.mem_map, expiredOf, List.mem_filter, decide_eq_true_eq]
      exact ⟨ e, ⟨ he, hpre, hage⟩, rfl⟩
    · simp only [sinkTick]
      exact hfreshpath e he hage
    · intro hq hmem
      simp only [sinkTick, enqueueNew_eq, List.mem_append, List.mem_reverse,
        List.mem_filter, decide_eq_true_eq] at hmem
      rcases hmem with ⟨ hp, _⟩ | hp
      · exact hfreshpath e he hage hp
      · exact hq hp
  · intro e he hpre hage
    have hin : e.path ∈ (freshOf conf entries).map (·.path) := by
      simp only [List.mem_map, freshOf, List.mem_filter, decide_eq_true_eq]
      exact ⟨ e, ⟨ he, hpre, hage⟩, rfl⟩
    refine ⟨ ?_, ?_⟩
    · simpa only [sinkTick] using hin
    · intro hacc
      simp only [sinkTick, enqueueNew_eq, List.mem_append, List.mem_reverse,
        List.mem_filter, decide_eq_true_eq]
      exact Or.inl ⟨ hin, hacc⟩
  · simp only [sinkTick, List.length_map]
  · intro p hp
    simp only [sinkTick] at hp ⊢
    obtain ⟨ n, hn⟩ := evictRev_drop (conf.size) (freshOf conf entries)
      ((enqueueNew ((( freshOf conf entries).map (·.path)).filter
        (fun p => decide (p ∉ acc))) queue).reverse)
      ((freshOf conf entries).foldl (fun a e => a + e.size) 0)
    rw [hn] at hp
    have := List.mem_of_mem_drop (List.mem_reverse.mp hp)
    exact List.mem_reverse.mp this

/-- C3 (witness): a matching expired entry (age 7 over ttl 5) is
unlinked and not enqueued, and a matching fresh one (age 3) is seen and
enqueued, at concrete inputs. -/
theorem sink_ttl_tick_witness :
    ( "sink-x" ∈ (sinkTick ⟨ "sink", 5, 1000⟩ [] []
        [⟨ "sink-x", 7, 10⟩, ⟨ "sink-y", 3, 10⟩]).unlinkedTtl) ∧
    ( "sink-y" ∈ (sinkTick ⟨ "sink", 5, 1000⟩ [] []
        [⟨ "sink-x", 7, 10⟩, ⟨ "sink-y", 3, 10⟩]).seen) := by
  have h := sink_ttl_tick ⟨ "sink", 5, 1000⟩ [] []
    [⟨ "sink-x", 7, 10⟩, ⟨ "sink-y", 3, 10⟩] (by decide)
  exact ⟨ (h.1 ⟨ "sink-x", 7, 10⟩ (by decide) (by decide) (by decide)).1,
    (h.2.1 ⟨ "sink-y", 3, 10⟩ (by decide) (by decide) (by decide)).1⟩

/-! ### Claim C4 -/

/-- C4 (counterexample): sink `sink` with `max_size = 1000`.  A first
tick discovers `sink-a` (600 bytes); a second tick discovers `sink-b`
(600 bytes, age 1 — the newest file, `sink-a` now being of age 6).  The
cap loop pops the back of the queue, which holds the earlier-admitted
`sink-a`; so the file unlinked by the size cap is the OLDEST admitted
file, not the newest as the claim states. -/
theorem sink_eviction_pops_oldest :
    (sinkTick ⟨ "sink", 10, 1000⟩
        (sinkTick ⟨ "sink", 10, 1000⟩ [] [] [⟨ "sink-a", 5, 600⟩]).seen
        (sinkTick ⟨ "sink", 10, 1000⟩ [] [] [⟨ "sink-a", 5, 600⟩]).queue
        [⟨ "sink-a", 6, 600⟩, ⟨ "sink-b", 1, 600⟩]).unlinkedSize ≠ [ "sink-b"] ∧
    (sinkTick ⟨ "sink", 10, 1000⟩
        (sinkTick ⟨ "sink", 10, 1000⟩ [] [] [⟨ "sink-a", 5, 600⟩]).seen
        (sinkTick ⟨ "sink", 10, 1000⟩ [] [] [⟨ "sink-a", 5, 600⟩]).queue
        [⟨ "sink-a", 6, 600⟩, ⟨ "sink-b", 1, 600⟩]).unlinkedSize = [ "sink-a"] ∧
    (sinkTick ⟨ "sink", 10, 1000⟩
        (sinkTick ⟨ "sink", 10, 1000⟩ [] [] [⟨ "sink-a", 5, 600⟩]).seen
        (sinkTick ⟨ "sink", 10, 1000⟩ [] [] [⟨ "sink-a", 5, 600⟩]).queue
        [⟨ "sink-a", 6, 600⟩, ⟨ "sink-b", 1, 600⟩]).sizeSkips = 1 := by
  exact ⟨ by decide, by decide, by decide⟩

/-- C4 (amended): the size-cap loop pops the BACK of the queue — which
is the earliest-admitted still-queued path, not the newest — unlinks the
popped file when it appears in the current fresh map, subtracting its
size and incrementing the size-skip counter, silently discards a popped
path absent from the fresh map, and stops exactly when the running total
is at or below `max_size` or the queue is empty; the surviving queue is
what is left after the popped back segment. -/
theorem sink_size_cap_loop :
    (∀ (ms : Nat) (fr : List FileMeta) (q : List String) (sz : Nat), sz ≤ ms →
      evictRev ms fr q sz = (q, [], 0, sz)) ∧
    (∀ (ms : Nat) (fr : List FileMeta) (sz : Nat), ms < sz →
      evictRev ms fr [] sz = ([], [], 0, sz)) ∧
    (∀ (ms : Nat) (fr : List FileMeta) (p : String) (rest : List String)
        (sz : Nat) (m : FileMeta), ms < sz → lookupMeta fr p = some m →
      evictRev ms fr (p :: rest) sz =
        ((evictRev ms fr rest (sz - m.size)).1,
          p :: (evictRev ms fr rest (sz - m.size)).2.1,
          (evictRev ms fr rest (sz - m.size)).2.2.1 + 1,
          (evictRev ms fr rest (sz - m.size)).2.2.2)) ∧
    (∀ (ms : Nat) (fr : List FileMeta) (p : String) (rest : List String)
        (sz : Nat), ms < sz → lookupMeta fr p = none →
      evictRev ms fr (p :: rest) sz = evictRev ms fr rest sz) ∧
    (∀ (ms : Nat) (fr : List FileMeta) (q : List String) (sz : Nat),
      (evictRev ms fr q sz).2.2.2 ≤ ms ∨ (evictRev ms fr q sz).1 = []) ∧
    (∀ (ms : Nat) (fr : List FileMeta) (q : List String) (sz : Nat),
      ∃ n, (evictRev ms fr q sz).1 = q.drop n) := by
  refine ⟨ ?_, ?_, ?_, ?_, evictRev_stop, evictRev_drop⟩
  · intro ms fr q sz h
    have hlt : ¬ ms < sz := by omega
    cases q with
    | nil => simp only [evictRev, if_neg hlt]
    | cons p rest => simp only [evictRev, if_neg hlt]
  · intro ms fr sz h
    simp only [evictRev, if_pos h]
  · intro ms fr p rest sz m h hm
    simp only [evictRev, if_pos h, hm]
  · intro ms fr p rest sz h hm
    simp only [evictRev, if_pos h, hm]

/-- C4 (witness): the loop equations applied at concrete inputs: a total
already under the cap is untouched, and one over the cap pops and
unlinks the back entry. -/
theorem sink_size_cap_loop_witness :
    evictRev 1000 [⟨ "p", 1, 600⟩] [ "p"] 600 = ([ "p"], [], 0, 600) ∧
    evictRev 1000 [⟨ "p", 1, 600⟩] [ "p"] 1200 =
      ((evictRev 1000 [⟨ "p", 1, 600⟩] [] 600).1,
        "p" :: (evictRev 1000 [⟨ "p", 1, 600⟩] [] 600).2.1,
        (evictRev 1000 [⟨ "p", 1, 600⟩] [] 600).2.2.1 + 1,
        (evictRev 1000 [⟨ "p", 1, 600⟩] [] 600).2.2.2) :=
  ⟨ sink_size_cap_loop.1 1000 _ _ 600 (by decide),
    sink_size_cap_loop.2.2.1 1000 _ "p" [] 1200 ⟨ "p", 1, 600⟩ (by decide) (by decide)⟩

theorem readChunk_split (sz : Nat) :
    ∀ (lines : List String) (len : Nat),
      ∃ pre rest, lines = pre ++ rest ∧
        (readChunk sz lines len).1 = pre.filter (fun s => decide (¬ s = "")) ∧
        (((readChunk sz lines len).2.1 = none ∧ rest = []) ∨
          (readChunk sz lines len).2.1 = some rest) := by
  intro lines
  induction lines with
  | nil =>
    intro len
    by_cases h : len < sz
    · exact ⟨ [], [], rfl, by simp [readChunk, if_pos h], Or.inl
        ⟨ by simp only [readChunk, if_pos h], rfl⟩⟩
    · exact ⟨ [], [], rfl, by simp [readChunk, if_neg h], Or.inr
        (by simp only [readChunk, if_neg h])⟩
  | cons line rest ih =>
    intro len
    by_cases h : len < sz
    · by_cases hb : line = ""
      · obtain ⟨ pre, r, hsplit, hem, hrd⟩ := ih len
        refine ⟨ line :: pre, r, by simp [hsplit], ?_, ?_⟩
        · simp only [readChunk, if_pos h, if_pos hb, List.filter_cons]
          simp [hb, hem]
        · simpa only [readChunk, if_pos h, if_pos hb] using hrd
      · obtain ⟨ pre, r, hsplit, hem, hrd⟩ := ih (len + (line.length + 1))
        refine ⟨ line :: pre, r, by simp [hsplit], ?_, ?_⟩
        · simp only [readChunk, if_pos h, if_neg hb, List.filter_cons]
          simp [hb, hem]
        · simpa only [readChunk, if_pos h, if_neg hb] using hrd
    · exact ⟨ [], line :: rest, rfl, by simp [readChunk, if_neg h], Or.inr
        (by simp only [readChunk, if_neg h])⟩

theorem readChunk_progress (sz : Nat) :
    ∀ (lines : List String) (len : Nat), len < sz →
      (readChunk sz lines len).2.1 = none ∨
      ∃ rest, (readChunk sz lines len).2.1 = some rest ∧
        rest.length < lines.length := by
  intro lines
  induction lines with
  | nil =>
    intro len h
    left
    simp only [readChunk, if_pos h]
  | cons line rest ih =>
    intro len h
    by_cases hb : line = ""
    · rcases ih len h with hn | ⟨ r, hr, hlen⟩
      · left; simpa only [readChunk, if_pos h, if_pos hb] using hn
      · right
        exact ⟨ r, by simpa only [readChunk, if_pos h, if_pos hb] using hr, by simp; omega⟩
    · by_cases h2 : len + (line.length + 1) < sz
      · rcases ih (len + (line.length + 1)) h2 with hn | ⟨ r, hr, hlen⟩
        · left; simpa only [readChunk, if_pos h, if_neg hb] using hn
        · right
          exact ⟨ r, by simpa only [readChunk, if_pos h, if_neg hb] using hr, by simp; omega⟩
      · right
        refine ⟨ rest, ?_, by simp⟩
        simp only [readChunk, if_pos h, if_neg hb]
        cases rest with
        | nil => simp only [readChunk, if_neg h2]
        | cons a t => simp only [readChunk, if_neg h2]

/-! ### Claim C9 -/

/-- C9: the streaming body stops admitting files exactly when the file
count has reached `batch_count`, the byte count has reached
`batch_size`, or the queue is empty — the end of body is reported only
between files; while a file is open, `poll_data` always yields a chunk
(never end of body), admits no new file, emits the non-blank lines of a
consumed prefix of the file, and strictly shrinks the remaining lines
until the file is closed, so a file whose reading has started is read to
completion within the same request. -/
theorem body_batch_limits (p : BatchParams) (b : BodyS) :
    (b.reader = none →
      ((poll_data p b).1 = .eof ↔
        p.batch_count ≤ b.current_batch_count ∨
        p.batch_size ≤ b.current_batch_size ∨ b.queue = [])) ∧
    (∀ l, b.reader = some l →
      ((poll_data p b).2.queue = b.queue ∧
        (poll_data p b).2.files = b.files ∧
        (poll_data p b).2.current_batch_count = b.current_batch_count) ∧
      (∃ pre rest, l = pre ++ rest ∧
        (poll_data p b).1 = .chunk (pre.filter (fun s => decide (¬ s = ""))) ∧
        (((poll_data p b).2.reader = none ∧ rest = []) ∨
          (poll_data p b).2.reader = some rest)) ∧
      ((poll_data p b).2.reader = none ∨
        ∃ rest, (poll_data p b).2.reader = some rest ∧
          rest.length < l.length)) := by
  constructor
  · intro h
    by_cases hc : p.batch_count ≤ b.current_batch_count ∨ p.batch_size ≤ b.current_batch_size
    · have he : (poll_data p b).1 = .eof := by
        simp only [poll_data, h, if_pos hc]
      exact iff_of_true he (hc.elim Or.inl (fun x => Or.inr (Or.inl x)))
    · cases hq : b.queue with
      | nil =>
        have he : (poll_data p b).1 = .eof := by
          simp only [poll_data, h, if_neg hc, hq]
        exact iff_of_true he (Or.inr (Or.inr rfl))
      | cons f rest =>
        have he : (poll_data p b).1 = .notReady := by
          simp only [poll_data, h, if_neg hc, hq]
        rw [he]
        constructor
        · intro hk
          exact PollResult.noConfusion hk
        · intro hr
          rcases hr with hr | hr | hr
          · exact absurd (Or.inl hr) hc
          · exact absurd (Or.inr hr) hc
          · exact List.noConfusion hr
  · intro l h
    simp only [poll_data, h]
    refine ⟨ ⟨ by trivial, by trivial, by trivial⟩, ?_, ?_⟩
    · obtain ⟨ pre, rest, hsplit, hem, hrd⟩ := readChunk_split CHUNK_SIZE l 0
      exact ⟨ pre, rest, hsplit, by rw [hem], hrd⟩
    · have h0 : (0 : Nat) < CHUNK_SIZE := by decide
      exact readChunk_progress CHUNK_SIZE l 0 h0

/-- C9 (witness): a body with the file count at the limit reports end of
body, and one with an open single-line file yields a chunk and closes
the file. -/
theorem body_batch_limits_witness :
    (poll_data ⟨ 2, 100⟩ ⟨ [], [], 0, 2, none⟩).1 = .eof ∧
    (poll_data ⟨ 2, 100⟩ ⟨ [], [], 0, 0, some [ "x"]⟩).2.queue = [] := by
  have h1 := (body_batch_limits ⟨ 2, 100⟩ ⟨ [], [], 0, 2, none⟩).1 rfl
  have h2 := ((body_batch_limits ⟨ 2, 100⟩ ⟨ [], [], 0, 0, some [ "x"]⟩).2
    [ "x"] rfl).1
  exact ⟨ h1.mpr (Or.inl (by decide)), h2.1⟩

theorem splitn2_none_iff (c : Char) : ∀ l : List Char, (splitn2 c l).2 = none ↔ c ∉ l := by
  intro l
  induction l with
  | nil => simp [splitn2]
  | cons x xs ih =>
    by_cases hx : x = c
    · subst hx
      simp [splitn2]
    · simp only [splitn2, if_neg hx, List.mem_cons]
      rw [ih]
      constructor
      · intro h hc
        rcases hc with hc | hc
        · exact hx hc.symm
        · exact h hc
      · intro h hc
        exact h (Or.inr hc)

theorem splitBraceSpace_none_iff : ∀ l : List Char,
    (splitBraceSpace l).2 = none ↔ ∀ a b : List Char, l ≠ a ++ '\x7d' :: ' ' :: b := by
  intro l
  induction l with
  | nil =>
    refine iff_of_true (by simp [splitBraceSpace]) ?_
    intro a b hab
    have := congrArg List.length hab
    simp at this
    omega
  | cons x xs ih =>
    by_cases hx : x = '\x7d'
    · subst hx
      cases xs with
      | nil =>
        refine iff_of_true (by decide) ?_
        intro a b hab
        have := congrArg List.length hab
        simp at this
        omega
      | cons y ys =>
        by_cases hy : y = ' '
        · subst hy
          refine iff_of_false ?_ ?_
          · simp [splitBraceSpace]
          · intro h
            exact h [] ys rfl
        · have hres : (splitBraceSpace ('\x7d' :: y :: ys)).2 =
              (splitBraceSpace (y :: ys)).2 := by
            simp [splitBraceSpace, hy]
          rw [hres, ih]
          constructor
          · intro h a b hab
            cases a with
            | nil =>
              simp only [List.nil_append, List.cons.injEq] at hab
              exact hy hab.2.1
            | cons c a' =>
              simp only [List.cons_append, List.cons.injEq] at hab
              exact h a' b hab.2
          · intro h a b hab
            refine h ('\x7d' :: a) b ?_
            rw [hab]
            rfl
    · have hres : (splitBraceSpace (x :: xs)).2 = (splitBraceSpace xs).2 := by
        cases xs with
        | nil => simp [splitBraceSpace, hx]
        | cons y ys => simp [splitBraceSpace, hx]
      rw [hres, ih]
      constructor
      · intro h a b hab
        cases a with
        | nil =>
          simp only [List.nil_append, List.cons.injEq] at hab
          exact hx hab.1
        | cons c a' =>
          simp only [List.cons_append, List.cons.injEq] at hab
          exact h a' b hab.2
      · intro h a b hab
        refine h (x :: a) b ?_
        rw [hab]
        rfl

/-! ### Claim C8 -/

/-- C8 (counterexample): the line `1// f(abc) 1` (braces around `abc`)
contains no equals sign at all, and the drop set is non-empty, yet
`remove_labels` succeeds — the label chunk without an equals sign is
silently discarded instead of raising a `ParseError`. -/
theorem remove_labels_no_eq_ok :
    ('=' ∉ "1// f\x7babc\x7d 1".toList) ∧
    ([ "x".toList] : List (List Char)) ≠ [] ∧
    remove_labels "1// f\x7babc\x7d 1".toList [ "x".toList] =
      .ok "1// f\x7b\x7d 1".toList := by
  exact ⟨ by decide, by decide, by decide⟩

/-- C8 (amended): with a non-empty drop set, `remove_labels` fails with
`no_labels` when the line has no opening brace and with `no_value` when
the remainder after the first opening brace nowhere contains a closing
brace followed by a space; when both are present it always returns
successfully — a label with no equals sign is silently dropped, never an
error. -/
theorem remove_labels_failure_modes (line : List Char) (drop : List (List Char))
    (hd : drop ≠ []) :
    ('\x7b' ∉ line → remove_labels line drop = .error .noLabels) ∧
    (∀ rest, (splitn2 '\x7b' line).2 = some rest →
      (∀ a b : List Char, rest ≠ a ++ '\x7d' :: ' ' :: b) →
      remove_labels line drop = .error .noValue) ∧
    (∀ rest v, (splitn2 '\x7b' line).2 = some rest →
      (splitBraceSpace rest).2 = some v →
      ∃ out, remove_labels line drop = .ok out) := by
  have hde : drop.isEmpty = false := by
    cases drop with
    | nil => exact absurd rfl hd
    | cons d ds => rfl
  refine ⟨ ?_, ?_, ?_⟩
  · intro hmem
    have h1 : (splitn2 '\x7b' line).2 = none := (splitn2_none_iff _ _).mpr hmem
    simp [remove_labels, hde, h1]
  · intro rest h1 h2
    have h3 : (splitBraceSpace rest).2 = none := (splitBraceSpace_none_iff _).mpr h2
    simp [remove_labels, hde, h1, h3]
  · intro rest v h1 h2
    cases hrl : remove_labels line drop with
    | ok out => exact ⟨ out, rfl⟩
    | error e =>
      exfalso
      simp [remove_labels, hde, h1, h2] at hrl

/-- C8 (witness): the failure modes at concrete lines: no opening brace,
no closing-brace-space, and both present with no equals sign. -/
theorem remove_labels_failure_modes_witness :
    remove_labels "abc".toList [ "x".toList] = .error .noLabels ∧
    remove_labels "a\x7bb".toList [ "x".toList] = .error .noValue ∧
    ∃ out, remove_labels "a\x7bk=v\x7d w".toList [ "x".toList] = .ok out := by
  refine ⟨ ?_, ?_, ?_⟩
  · exact (remove_labels_failure_modes _ _ (by decide)).1 (by decide)
  · refine (remove_labels_failure_modes _ _ (by decide)).2.1 "b".toList (by decide) ?_
    intro a b hab
    have := congrArg List.length hab
    simp at this
    omega
  · exact (remove_labels_failure_modes _ _ (by decide)).2.2 "k=v\x7d w".toList
      "w".toList (by decide) (by decide)

/-! ### Canonical lines and the label round trip (claim C7) -/

/-- One rendered label `key=value`, as the scraper preformats its extra
labels (src/scraper.rs lines 175-180) and as `remove_labels` re-renders
kept labels. -/
def renderLabel (kv : List Char × List Char) : List Char :=
  kv.1 ++ '=' :: kv.2

/-- A comma-joined label list. -/
def renderLabels (ls : List (List Char × List Char)) : List Char :=
  joinComma (ls.map renderLabel)

/-- A well-formed canonical line: the part before the label block (the
timestamp, the separator and the class), the labels, and the value. -/
def renderLine (cls : List Char) (ls : List (List Char × List Char))
    (v : List Char) : List Char :=
  cls ++ '\x7b' :: (renderLabels ls ++ '\x7d' :: ' ' :: v)

/-- A canonical label carries none of the structural characters: key and
value are free of closing braces, commas and equals signs, as
percent-encoding guarantees for lines the transcompiler produced. -/
def labelWf (kv : List Char × List Char) : Prop :=
  '\x7d' ∉ kv.1 ∧ '\x7d' ∉ kv.2 ∧ ',' ∉ kv.1 ∧ ',' ∉ kv.2 ∧ '=' ∉ kv.1 ∧ '=' ∉ kv.2

instance (kv : List Char × List Char) : Decidable (labelWf kv) := by
  unfold labelWf
  infer_instance

theorem isEmpty_false_of_ne_nil {α : Type} {l : List α} (h : l ≠ []) :
    l.isEmpty = false := by
  cases l with
  | nil => exact absurd rfl h
  | cons a t => rfl

theorem splitn2_append (c : Char) (b : List Char) :
    ∀ a : List Char, c ∉ a → splitn2 c (a ++ c :: b) = (a, some b) := by
  intro a
  induction a with
  | nil => intro _; simp [splitn2]
  | cons x xs ih =>
    intro h
    have hx : ¬ x = c := fun he => h (he ▸ List.mem_cons_self x xs)
    have hxs : c ∉ xs := fun hm => h (List.mem_cons_of_mem x hm)
    simp [splitn2, hx, ih hxs]

theorem splitBraceSpace_pat (b : List Char) :
    splitBraceSpace ('\x7d' :: ' ' :: b) = ([], some b) := by
  simp [splitBraceSpace]

theorem splitBraceSpace_cons_ne (x : Char) (xs : List Char) (hx : x ≠ '\x7d') :
    splitBraceSpace (x :: xs) =
      (x :: (splitBraceSpace xs).1, (splitBraceSpace xs).2) := by
  cases xs with
  | nil => simp [splitBraceSpace, hx]
  | cons y ys => simp [splitBraceSpace, hx]

theorem splitBraceSpace_append (b : List Char) :
    ∀ a : List Char, '\x7d' ∉ a →
      splitBraceSpace (a ++ '\x7d' :: ' ' :: b) = (a, some b) := by
  intro a
  induction a with
  | nil => intro _; exact splitBraceSpace_pat b
  | cons x xs ih =>
    intro h
    have hx : x ≠ '\x7d' := fun he => h (he ▸ List.mem_cons_self x xs)
    have hxs : '\x7d' ∉ xs := fun hm => h (List.mem_cons_of_mem x hm)
    rw [List.cons_append, splitBraceSpace_cons_ne x _ hx, ih hxs]

theorem splitAll_append (c : Char) (b : List Char) :
    ∀ a : List Char, c ∉ a → splitAll c (a ++ c :: b) = a :: splitAll c b := by
  intro a
  induction a with
  | nil => intro _; simp [splitAll]
  | cons x xs ih =>
    intro h
    have hx : ¬ x = c := fun he => h (he ▸ List.mem_cons_self x xs)
    have hxs : c ∉ xs := fun hm => h (List.mem_cons_of_mem x hm)
    rw [List.cons_append]
    simp only [splitAll, if_neg hx, ih hxs]

theorem splitAll_no (c : Char) : ∀ a : List Char, c ∉ a → splitAll c a = [a] := by
  intro a
  induction a with
  | nil => intro _; rfl
  | cons x xs ih =>
    intro h
    have hx : ¬ x = c := fun he => h (he ▸ List.mem_cons_self x xs)
    have hxs : c ∉ xs := fun hm => h (List.mem_cons_of_mem x hm)
    simp only [splitAll, if_neg hx, ih hxs]

theorem parseLabel_render (kv : List Char × List Char)
    (hk : '=' ∉ kv.1) (hv : '=' ∉ kv.2) : parseLabel (renderLabel kv) = some kv := by
  unfold parseLabel renderLabel
  rw [splitAll_append '=' kv.2 kv.1 hk, splitAll_no '=' kv.2 hv]
  rfl

theorem trimRight_cons (c : Char) (t : List Char) (hc : isWsChar c = false) :
    trimRight (c :: t) = c :: trimRight t := by
  simp only [trimRight]
  cases h : trimRight t with
  | nil => simp [hc]
  | cons a r => rfl

theorem trim_cons_ws (c : Char) (t : List Char) (h : isWsChar c = true) :
    trim (c :: t) = trim t := by
  simp [trim, List.dropWhile, h]

theorem trim_head_of (c : Char) (t : List Char) (h : isWsChar c = false) :
    (trim (c :: t)).head? = some c := by
  unfold trim
  rw [List.dropWhile_cons_of_neg (by simp [h]), trimRight_cons c _ h]
  rfl

theorem trim_head_append_ne_brace (b : List Char) :
    ∀ a : List Char, '\x7d' ∉ a →
      (trim (a ++ '=' :: b)).head? ≠ some '\x7d' := by
  intro a
  induction a with
  | nil =>
    intro _
    rw [List.nil_append, trim_head_of '=' b (by decide)]
    simp
  | cons c a' ih =>
    intro h
    have hc : c ≠ '\x7d' := fun he => h (he ▸ List.mem_cons_self c a')
    have ha' : '\x7d' ∉ a' := fun hm => h (List.mem_cons_of_mem c hm)
    rw [List.cons_append]
    cases hw : isWsChar c with
    | true => rw [trim_cons_ws c _ hw]; exact ih ha'
    | false =>
      rw [trim_head_of c _ hw]
      simp [hc]

theorem joinComma_cons_of_ne (x : List Char) (xs : List (List Char))
    (h : xs ≠ []) : joinComma (x :: xs) = x ++ ',' :: joinComma xs := by
  cases xs with
  | nil => exact absurd rfl h
  | cons y ys => rfl

theorem renderLabels_ne_nil (L : List (List Char × List Char)) (h : L ≠ []) :
    renderLabels L ≠ [] := by
  cases L with
  | nil => exact absurd rfl h
  | cons kv rest =>
    cases rest with
    | nil =>
      show renderLabel kv ≠ []
      unfold renderLabel
      simp
    | cons r rs =>
      show joinComma (renderLabel kv :: renderLabel r :: rs.map renderLabel) ≠ []
      rw [joinComma_cons_of_ne _ _ (by simp)]
      unfold renderLabel
      simp

theorem mem_joinComma {c : Char} : ∀ xs : List (List Char),
    c ∈ joinComma xs → c = ',' ∨ ∃ x ∈ xs, c ∈ x := by
  intro xs
  induction xs with
  | nil => intro h; simp [joinComma] at h
  | cons x rest ih =>
    intro h
    cases rest with
    | nil =>
      right
      exact ⟨ x, List.mem_cons_self x [], h⟩
    | cons y ys =>
      rw [joinComma_cons_of_ne x (y :: ys) (by simp)] at h
      rcases List.mem_append.mp h with hx | hr
      · right; exact ⟨ x, List.mem_cons_self x _, hx⟩
      · rcases List.mem_cons.mp hr with hc | hj
        · left; exact hc
        · rcases ih hj with hc | ⟨ z, hz, hcz⟩
          · left; exact hc
          · right; exact ⟨ z, List.mem_cons_of_mem x hz, hcz⟩

theorem brace_not_mem_renderLabels (ll : List (List Char × List Char))
    (h : ∀ kv ∈ ll, labelWf kv) : '\x7d' ∉ renderLabels ll := by
  intro hmem
  rcases mem_joinComma (ll.map renderLabel) hmem with hc | ⟨ x, hx, hcx⟩
  · exact absurd hc (by decide)
  · rcases List.mem_map.mp hx with ⟨ kv, hkv, rfl⟩
    obtain ⟨ h1, h2, _, _, _, _⟩ := h kv hkv
    unfold renderLabel at hcx
    rcases List.mem_append.mp hcx with hk | hv
    · exact h1 hk
    · rcases List.mem_cons.mp hv with he | hv
      · exact absurd he (by decide)
      · exact h2 hv

theorem comma_not_mem_renderLabel (kv : List Char × List Char)
    (h : labelWf kv) : ',' ∉ renderLabel kv := by
  intro hmem
  obtain ⟨ _, _, h3, h4, _, _⟩ := h
  unfold renderLabel at hmem
  rcases List.mem_append.mp hmem with hk | hv
  · exact h3 hk
  · rcases List.mem_cons.mp hv with he | hv
    · exact absurd he (by decide)
    · exact h4 hv

theorem splitAll_joinComma : ∀ xs : List (List Char), xs ≠ [] →
    (∀ x ∈ xs, ',' ∉ x) → splitAll ',' (joinComma xs) = xs := by
  intro xs
  induction xs with
  | nil => intro h; exact absurd rfl h
  | cons x rest ih =>
    intro _ h
    cases rest with
    | nil =>
      show splitAll ',' (joinComma [x]) = [x]
      exact splitAll_no ',' x (h x (List.mem_cons_self x []))
    | cons y ys =>
      rw [joinComma_cons_of_ne x (y :: ys) (by simp)]
      rw [splitAll_append ',' _ x (h x (List.mem_cons_self x _))]
      rw [ih (by simp) (fun z hz => h z (List.mem_cons_of_mem x hz))]

theorem filterMap_parseLabel_render : ∀ ll : List (List Char × List Char),
    (∀ kv ∈ ll, '=' ∉ kv.1 ∧ '=' ∉ kv.2) →
    (ll.map renderLabel).filterMap parseLabel = ll := by
  intro ll
  induction ll with
  | nil => intro _; rfl
  | cons kv rest ih =>
    intro h
    obtain ⟨ hk, hv⟩ := h kv (List.mem_cons_self kv rest)
    rw [List.map_cons, List.filterMap_cons, parseLabel_render kv hk hv]
    rw [ih (fun z hz => h z (List.mem_cons_of_mem kv hz))]

theorem renderLabels_append : ∀ (L ls : List (List Char × List Char)),
    L ≠ [] → ls ≠ [] →
    renderLabels (L ++ ls) = renderLabels L ++ ',' :: renderLabels ls := by
  intro L
  induction L with
  | nil => intro ls h _; exact absurd rfl h
  | cons kv L' ih =>
    intro ls _ hls
    cases L' with
    | nil =>
      cases ls with
      | nil => exact absurd rfl hls
      | cons m ms =>
        show joinComma (renderLabel kv :: (m :: ms).map renderLabel) =
          renderLabel kv ++ ',' :: renderLabels (m :: ms)
        rw [joinComma_cons_of_ne _ _ (by simp)]
        rfl
    | cons k2 L'' =>
      show joinComma (renderLabel kv :: ((k2 :: L'') ++ ls).map renderLabel) =
        renderLabels (kv :: k2 :: L'') ++ ',' :: renderLabels ls
      rw [joinComma_cons_of_ne _ _ (by simp)]
      have hmid := ih ls (by simp) hls
      unfold renderLabels at hmid
      rw [List.map_append] at hmid ⊢
      rw [hmid]
      show renderLabel kv ++ ',' :: (joinComma ((k2 :: L'').map renderLabel) ++
        ',' :: joinComma (ls.map renderLabel)) =
        joinComma (renderLabel kv :: (k2 :: L'').map renderLabel) ++
          ',' :: joinComma (ls.map renderLabel)
      rw [joinComma_cons_of_ne _ _ (by simp)]
      simp

theorem add_labels_render (cls v : List Char) (ls L : List (List Char × List Char))
    (hcls : '\x7b' ∉ cls) (hls : ∀ kv ∈ ls, labelWf kv) (hLne : L ≠ []) :
    add_labels (renderLine cls ls v) (renderLabels L) =
      .ok (cls ++ '\x7b' :: (renderLabels (L ++ ls) ++ '\x7d' :: ' ' :: v)) := by
  have hemp : (renderLabels L).isEmpty = false :=
    isEmpty_false_of_ne_nil (renderLabels_ne_nil L hLne)
  unfold add_labels renderLine
  rw [hemp]
  simp only [Bool.false_eq_true, if_false]
  rw [splitn2_append '\x7b' (renderLabels ls ++ '\x7d' :: ' ' :: v) cls hcls]
  cases ls with
  | nil =>
    have hhead : (trim (renderLabels ([] : List (List Char × List Char)) ++
        '\x7d' :: ' ' :: v)).head? = some '\x7d' := by
      show (trim ('\x7d' :: ' ' :: v)).head? = some '\x7d'
      exact trim_head_of '\x7d' _ (by decide)
    simp only [hhead, if_pos]
    simp [renderLabels, joinComma]
  | cons kv ls' =>
    have hsplitkv : ∃ T, renderLabels (kv :: ls') = renderLabel kv ++ T := by
      cases ls' with
      | nil => exact ⟨ [], by simp [renderLabels, joinComma]⟩
      | cons r rs =>
        refine ⟨ ',' :: joinComma ((r :: rs).map renderLabel), ?_⟩
        show joinComma (renderLabel kv :: (r :: rs).map renderLabel) = _
        rw [joinComma_cons_of_ne _ _ (by simp)]
    obtain ⟨ T, hT⟩ := hsplitkv
    have hbk : '\x7d' ∉ kv.1 := (hls kv (List.mem_cons_self kv ls')).1
    have hhead : (trim (renderLabels (kv :: ls') ++ '\x7d' :: ' ' :: v)).head? ≠
        some '\x7d' := by
      rw [hT]
      have hgoal : (renderLabel kv ++ T) ++ ('\x7d' :: ' ' :: v) =
          kv.1 ++ '=' :: (kv.2 ++ (T ++ '\x7d' :: ' ' :: v)) := by
        unfold renderLabel
        simp
      rw [hgoal]
      exact trim_head_append_ne_brace (kv.2 ++ (T ++ '\x7d' :: ' ' :: v)) kv.1 hbk
    simp only [if_neg hhead]
    rw [renderLabels_append L (kv :: ls') hLne (by simp)]
    simp

theorem remove_labels_render (cls v : List Char) (ls L : List (List Char × List Char))
    (hcls : '\x7b' ∉ cls) (hwf : ∀ kv ∈ L ++ ls, labelWf kv) (hLne : L ≠ [])
    (hdisj : ∀ kv ∈ ls, kv.1 ∉ L.map Prod.fst) :
    remove_labels (cls ++ '\x7b' :: (renderLabels (L ++ ls) ++ '\x7d' :: ' ' :: v))
      (L.map Prod.fst) = .ok (renderLine cls ls v) := by
  have hLls : (L ++ ls) ≠ [] := by
    cases L with
    | nil => exact absurd rfl hLne
    | cons a t => simp
  have hemp : (L.map Prod.fst).isEmpty = false := by
    cases L with
    | nil => exact absurd rfl hLne
    | cons a t => rfl
  simp only [remove_labels, hemp, Bool.false_eq_true, if_false,
    splitn2_append '\x7b' (renderLabels (L ++ ls) ++ '\x7d' :: ' ' :: v) cls hcls,
    splitBraceSpace_append v (renderLabels (L ++ ls))
      (brace_not_mem_renderLabels (L ++ ls) hwf)]
  rw [show splitAll ',' (renderLabels (L ++ ls)) = (L ++ ls).map renderLabel from
    splitAll_joinComma ((L ++ ls).map renderLabel) (by simpa using hLls)
      (fun x hx => by
        rcases List.mem_map.mp hx with ⟨ kv, hkv, rfl⟩
        exact comma_not_mem_renderLabel kv (hwf kv hkv))]
  rw [filterMap_parseLabel_render (L ++ ls) (fun kv hkv =>
    ⟨ (hwf kv hkv).2.2.2.2.1, (hwf kv hkv).2.2.2.2.2⟩)]
  rw [List.filter_append]
  rw [show L.filter (fun kv => decide (¬ (L.map Prod.fst).contains kv.1 = true)) =
      [] from List.filter_eq_nil_iff.mpr (fun kv hkv => by
        simp
        exact ⟨ kv.2, by simpa using hkv⟩)]
  rw [show ls.filter (fun kv => decide (¬ (L.map Prod.fst).contains kv.1 = true)) =
      ls from List.filter_eq_self.mpr (fun kv hkv => by
        simp
        intro x hx
        exact (hdisj kv hkv) (List.mem_map.mpr ⟨ (kv.1, x), hx, rfl⟩))]
  rfl

/-! ### Claim C7 -/

/-- C7: for every well-formed canonical line whose labels avoid the keys
of a non-empty extra-label set `L`, removing `L`'s keys after adding
`L`'s rendered labels returns exactly the original line. -/
theorem label_roundtrip (cls v : List Char) (ls L : List (List Char × List Char))
    (hcls : '\x7b' ∉ cls)
    (hls : ∀ kv ∈ ls, labelWf kv) (hL : ∀ kv ∈ L, labelWf kv)
    (hLne : L ≠ [])
    (hdisj : ∀ kv ∈ ls, kv.1 ∉ L.map Prod.fst) :
    (add_labels (renderLine cls ls v) (renderLabels L)).bind
      (fun m => remove_labels m (L.map Prod.fst)) = .ok (renderLine cls ls v) := by
  rw [add_labels_render cls v ls L hcls hls hLne]
  show remove_labels (cls ++ '\x7b' :: (renderLabels (L ++ ls) ++ '\x7d' :: ' ' :: v))
    (L.map Prod.fst) = .ok (renderLine cls ls v)
  refine remove_labels_render cls v ls L hcls ?_ hLne hdisj
  intro kv hkv
  rcases List.mem_append.mp hkv with h | h
  · exact hL kv h
  · exact hls kv h

/-- C7 (witness): the round trip at the concrete line `1// f(a=1) 42`
(braces around the label) with the extra label `host=h1`. -/
theorem label_roundtrip_witness :
    (add_labels (renderLine "1// f".toList [( "a".toList, "1".toList)] "42".toList)
        (renderLabels [( "host".toList, "h1".toList)])).bind
      (fun m => remove_labels m ([( "host".toList, "h1".toList)].map Prod.fst)) =
      .ok (renderLine "1// f".toList [( "a".toList, "1".toList)] "42".toList) :=
  label_roundtrip _ _ _ _ (by decide) (by decide) (by decide) (by decide) (by decide)

end Beamium
